import Mathlib

/-!
Shallow embedding of the riffle server (`server/server.go`) for checking the
natural-language specification against the code.

Modelling conventions:
* Byte strings are `List Nat`; byte-level XOR is `Nat.xor`.
* Group elements, scalars and external crypto primitives
  (`abstract.Point`, `ComputeResponse`, `MarshalPoint`, `shuffle.Shuffle2`,
  `Decrypt`) live in the library `afs/lib` and `dedis/crypto`, which are not
  part of this repository's source; they are taken as type/function
  parameters, or modelled from the spec where the spec fixes their meaning.
* Go slices become `List`s; a nil slice is the empty list (indexing either
  one faults, which we model with `Option`).
* Concurrency: each handler is embedded as a state transformer together with
  a sequential trace of channel/lock events.  The trace is a linearization
  consistent with the code's happens-before order (goroutine fan-outs are
  joined by `sync.WaitGroup` before the next listed event, so every listed
  ordering holds in every real execution).
-/

namespace Riffle

/-- A decrypted payload with its round counter (`lib.Block`). -/
structure Blk where
  Block : List Nat
  Round : Nat
  deriving DecidableEq, Repr

/-- One client upload: per-chunk ElGamal ciphertext components, marshalled
(`lib.UpBlock`, fields `BC1`, `BC2`). -/
structure UpBlock where
  BC1 : List (List Nat)
  BC2 : List (List Nat)
  deriving DecidableEq, Repr

/-- Modelled from the spec: `lib.Xor` (afs/lib is not under src/) XORs the
first byte string into the second, byte by byte. -/
def bXor (a b : List Nat) : List Nat :=
  List.zipWith Nat.xor a b

/-- Modelled from the spec: `lib.Xors` (afs/lib is not under src/)
XOR-combines a list of byte strings into one. -/
def Xors : List (List Nat) → List Nat
  | [] => []
  | b :: rest => rest.foldl bXor b

/-- Modelled from the spec: `lib.XorsDC` (afs/lib is not under src/) is the
elementwise XOR across clients' share vectors, preserving the inner
dimension. -/
def XorsDC : List (List (List Nat)) → List (List Nat)
  | [] => []
  | r :: rest => rest.foldl (fun acc row => List.zipWith bXor acc row) r

/-- Events of the linearized traces of the server's handlers. -/
inductive Event where
  | lockReg (i : Nat)
  | unlockReg (i : Nat)
  | assignId (v : Nat)
  | incCounter
  | sendRegister2 (srv : Nat)
  | sendRegisterDone2 (srv : Nat) (n : Nat)
  | recvXors (srv : Nat) (cid : Nat)
  | recvBlocksRdy (cid : Nat)
  | recvReqHashesRdy (cid : Nat)
  | signalReqHashesRdy (cid : Nat)
  | signalUpHashesRdy (cid : Nat)
  | recvRequest (cid : Nat)
  | publishReqHashes
  | setUpHash (j : Nat)
  | sendDblocks
  | samplePI (pi : List Nat)
  | shuffleChunk (c : Nat) (pi : List Nat)
  | ret
  deriving DecidableEq, Repr

/-! ### ConnectServers: the `nextPk` computation (claim C6)

`server.go` lines 172-179: after all public keys are fetched,

    if s.id != len(s.servers)-1 {
        s.nextPk = s.pks[s.id]
        for i := s.id+1; i < len(s.servers); i++ {
            s.nextPk = s.g.Point().Add(s.nextPk, s.pks[i])
        }
    } else {
        s.nextPk = s.pk
    }

The group is abstract: `P` with `add`; `pks : List P` is the fetched key
list, `pk : P` the server's own key, `dflt` stands for the out-of-bounds
value (never used when `id < pks.length`). -/
def connectNextPk {P : Type} (add : P → P → P) (dflt : P)
    (pk : P) (pks : List P) (id : Nat) : P :=
  if id ≠ pks.length - 1 then
    (List.range' (id + 1) (pks.length - (id + 1))).foldl
      (fun acc i => add acc (pks.getD i dflt)) (pks.getD id dflt)
  else
    pk

/-- The spec-side reading of "group sum of the keys at indices id..N-1":
left fold of `add` over the suffix starting at `id`. -/
def sumKeys {P : Type} (add : P → P → P) (dflt : P) (l : List P) : P :=
  match l with
  | [] => dflt
  | x :: xs => xs.foldl add x

lemma range'_map_getD {P : Type} (dflt : P) :
    ∀ (pks : List P) (a : Nat), a ≤ pks.length →
      (List.range' a (pks.length - a)).map (fun i => pks.getD i dflt) =
        pks.drop a := by
  intro pks
  induction pks with
  | nil => intro a h; simp_all
  | cons x xs ih =>
    intro a h
    cases a with
    | zero =>
      simp only [List.length_cons, Nat.sub_zero, List.drop_zero]
      rw [List.range'_succ]
      simp only [List.map_cons, List.getD_cons_zero]
      have h2 : (List.range' 1 xs.length).map (fun i => (x :: xs).getD i dflt) =
          (List.range' 0 xs.length).map (fun i => xs.getD i dflt) := by
        have : List.range' 1 xs.length = (List.range' 0 xs.length).map (· + 1) := by
          rw [List.range'_eq_map_range, List.range'_eq_map_range]
          simp [List.map_map]
          omega
        rw [this, List.map_map]
        apply List.map_congr_left
        intro i _
        simp [List.getD_cons_succ]
      rw [h2]
      have := ih 0 (Nat.zero_le _)
      simpa using this
    | succ a' =>
      simp only [List.length_cons, List.drop_succ_cons]
      have hs : xs.length + 1 - (a' + 1) = xs.length - a' := by omega
      rw [hs]
      have h3 : (List.range' (a' + 1) (xs.length - a')).map
            (fun i => (x :: xs).getD i dflt) =
          (List.range' a' (xs.length - a')).map (fun i => xs.getD i dflt) := by
        have : List.range' (a' + 1) (xs.length - a') =
            (List.range' a' (xs.length - a')).map (· + 1) := by
          rw [List.range'_eq_map_range, List.range'_eq_map_range]
          simp [List.map_map]
          omega
        rw [this, List.map_map]
        apply List.map_congr_left
        intro i _
        simp [List.getD_cons_succ]
      rw [h3]
      exact ih a' (by simp at h; omega)

lemma connectNextPk_loop_eq {P : Type} (add : P → P → P) (dflt : P)
    (pks : List P) (id : Nat) (h : id < pks.length) :
    (List.range' (id + 1) (pks.length - (id + 1))).foldl
      (fun acc i => add acc (pks.getD i dflt)) (pks.getD id dflt) =
      sumKeys add dflt (pks.drop id) := by
  have hdrop : pks.drop id = pks.getD id dflt :: pks.drop (id + 1) := by
    rw [List.getD_eq_getElem pks dflt h]
    exact List.drop_eq_getElem_cons h
  have hmap := range'_map_getD dflt pks (id + 1) (by omega)
  calc (List.range' (id + 1) (pks.length - (id + 1))).foldl
        (fun acc i => add acc (pks.getD i dflt)) (pks.getD id dflt)
      = ((List.range' (id + 1) (pks.length - (id + 1))).map
          (fun i => pks.getD i dflt)).foldl add (pks.getD id dflt) := by
        rw [List.foldl_map]
    _ = (pks.drop (id + 1)).foldl add (pks.getD id dflt) := by rw [hmap]
    _ = sumKeys add dflt (pks.drop id) := by rw [hdrop]; rfl

/-! ### Server state slice and the mask/secret operations (claims C3, C9, C10) -/

/-- The slice of server state that the mask/secret claims depend on:
`masks` and `secrets` (slices of byte strings) and the `regDone` flag.
Go's nil slice is the empty list. -/
structure SrvState where
  masks : List (List Nat)
  secrets : List (List Nat)
  regDone : Bool
  deriving DecidableEq, Repr

/-- State produced by `NewServer` (server.go 72-117): `masks` and `secrets`
are nil, `regDone` is false. -/
def newServerState : SrvState :=
  { masks := [], secrets := [], regDone := false }

/-- Go slice write `xs[i] = v`: panics (here: `none`) when `i` is out of
bounds — in particular always on a nil slice. -/
def listSet? {α : Type} (xs : List α) (i : Nat) (v : α) : Option (List α) :=
  if i < xs.length then some (xs.set i v) else none

/-- `RegisterDone2` (server.go 439-470), restricted to this state slice:
sets `masks[i]` and `secrets[i]` to `make([]byte, SecretSize)` (all zeros)
for every `i < numClients` and raises `regDone`. -/
def RegisterDone2_model (SecretSize numClients : Nat) (_st : SrvState) : SrvState :=
  { masks := List.replicate numClients (List.replicate SecretSize 0),
    secrets := List.replicate numClients (List.replicate SecretSize 0),
    regDone := true }

/-- `shareSecret` (server.go 482-488): with `gen` the group base and `e` the
scalar drawn from the PRNG, returns `(public, sharedSecret) =
(gen·e, clientPublic·e)`. -/
def shareSecret {P S : Type} (base : P) (ptMul : P → S → P)
    (clientPublic : P) (e : S) : P × P :=
  (ptMul base e, ptMul clientPublic e)

/-- The `masks[clientDH.Id] = MarshalPoint(shared)` write of `ShareMask`
(server.go 492), on already-marshalled bytes. -/
def shareMaskWrite (st : SrvState) (cid : Nat) (bytes : List Nat) : Option SrvState :=
  (listSet? st.masks cid bytes).map (fun ms => { st with masks := ms })

/-- The two writes of `ShareSecret` (server.go 499-500):
`secrets[clientDH.Id] = MarshalPoint(shared)` immediately followed by
`secrets[clientDH.Id] = make([]byte, SecretSize)`. -/
def shareSecretWrite (SecretSize : Nat) (st : SrvState) (cid : Nat)
    (bytes : List Nat) : Option SrvState :=
  (listSet? st.secrets cid bytes).bind (fun s1 =>
    (listSet? s1 cid (List.replicate SecretSize 0)).map
      (fun s2 => { st with secrets := s2 }))

/-- `ShareMask` (server.go 490-495): DH, store the marshalled shared point
in `masks[clientDH.Id]`, return the marshalled server ephemeral public. -/
def ShareMask? {P S : Type} (marshal : P → List Nat) (base : P)
    (ptMul : P → S → P) (e : S) (cid : Nat) (clientPub : P) (st : SrvState) :
    Option (SrvState × List Nat) :=
  let ps := shareSecret base ptMul clientPub e
  (shareMaskWrite st cid (marshal ps.2)).map (fun st' => (st', marshal ps.1))

/-- `ShareSecret` (server.go 497-503): DH, store the marshalled shared point
in `secrets[clientDH.Id]`, overwrite it with zeros, return the marshalled
server ephemeral public. -/
def ShareSecret? {P S : Type} (SecretSize : Nat) (marshal : P → List Nat)
    (base : P) (ptMul : P → S → P) (e : S) (cid : Nat) (clientPub : P)
    (st : SrvState) : Option (SrvState × List Nat) :=
  let ps := shareSecret base ptMul clientPub e
  (shareSecretWrite SecretSize st cid (marshal ps.2)).map
    (fun st' => (st', marshal ps.1))

/-- The exported server methods (RPC surface of server.go), abstracted to
their effect on the `masks`/`secrets` state slice.  Only `RegisterDone2`,
`ShareMask` and `ShareSecret` write these slices; every other exported
method reads state or works on channels and leaves them unchanged.  The
marshalled DH shared point written by a mask/secret exchange is carried as
`bytes`. -/
inductive Op where
  | register
  | register2
  | registerDone
  | registerDone2 (numClients : Nat)
  | getNumClients
  | getPK
  | shareMask (cid : Nat) (bytes : List Nat)
  | shareSecretOp (cid : Nat) (bytes : List Nat)
  | requestBlock
  | shareRequest
  | getReqHashes
  | uploadBlock
  | uploadBlock2
  | shuffleBlocks
  | getUpHashes
  | getResponse
  | putClientBlock
  | putUploadedBlocks
  deriving DecidableEq, Repr

/-- Effect of one exported method on the `masks`/`secrets` slice; `none`
models a Go panic (out-of-bounds slice write). -/
def applyOp (SecretSize : Nat) : Op → SrvState → Option SrvState
  | .registerDone2 n, st => some (RegisterDone2_model SecretSize n st)
  | .shareMask cid bytes, st => shareMaskWrite st cid bytes
  | .shareSecretOp cid bytes, st => shareSecretWrite SecretSize st cid bytes
  | _, st => some st

/-- Run a sequence of exported methods; a panic (`none`) aborts the run. -/
def runOps (SecretSize : Nat) : List Op → SrvState → Option SrvState
  | [], st => some st
  | op :: ops, st => (applyOp SecretSize op st).bind (runOps SecretSize ops)

/-- The invariant of claim C9: every stored secret is the all-zero byte
string of length `SecretSize`. -/
def SecretsAllZero (SecretSize : Nat) (st : SrvState) : Prop :=
  ∀ x ∈ st.secrets, x = List.replicate SecretSize 0

instance (SecretSize : Nat) (st : SrvState) :
    Decidable (SecretsAllZero SecretSize st) := by
  unfold SecretsAllZero; infer_instance

/-- The third argument `s.secrets[i]` passed to `ComputeResponse` in
`handleResponse` (server.go 222) and `GetResponse` (server.go 580). -/
def responseSecretArg (st : SrvState) (i : Nat) : List Nat :=
  st.secrets.getD i []

/-! ### Request pipeline: `handleRequest`, `GetReqHashes` (claim C5) -/

/-- `handleRequest` (server.go 183-208), value part: one request share is
received from `requestsChan[i]` for each `i < totalClients` (`requests i` is
the `.Hash` field of the value delivered on that channel), then
`reqHashes = XorsDC(allRequests)`. -/
def handleRequest_reqHashes (totalClients : Nat)
    (requests : Nat → List (List Nat)) : List (List Nat) :=
  XorsDC ((List.range totalClients).map requests)

/-- `handleRequest` (server.go 183-208), trace: the concurrent receives are
joined by `wg.Wait()` before `reqHashes` is written, then `reqHashesRdy[i]`
is signaled for each locally hosted `i`. -/
def handleRequest_trace (totalClients self : Nat) (clientMap : Nat → Nat) :
    List Event :=
  ((List.range totalClients).map Event.recvRequest)
    ++ [Event.publishReqHashes]
    ++ (((List.range totalClients).filter (fun i => clientMap i = self)).map
          Event.signalReqHashesRdy)

/-- `GetReqHashes` (server.go 529-533): block on `reqHashesRdy[id]`, then
return `s.reqHashes`. -/
def GetReqHashes_trace (cid : Nat) : List Event :=
  [Event.recvReqHashesRdy cid, Event.ret]

/-- `GetReqHashes` returns the server's current `reqHashes` unchanged. -/
def GetReqHashes_val (reqHashes : List (List Nat)) : List (List Nat) :=
  reqHashes

/-! ### Download pipeline: `GetResponse` (claim C1) -/

/-- `GetResponse` (server.go 563-584), value of `otherBlocks`: the all-zeros
placeholder of length `BlockSize` at index `self`, and for `i ≠ self` the
`.Block` of the value received from `xorsChan[i][cmask.Id]` (`shares i`). -/
def GetResponse_otherBlocks (BlockSize numServers self : Nat)
    (shares : Nat → List Nat) : List (List Nat) :=
  (List.range numServers).map
    (fun i => if i = self then List.replicate BlockSize 0 else shares i)

/-- `GetResponse` (server.go 563-584), returned value:
`r := ComputeResponse(allBlocks, cmask.Mask, secrets[cmask.Id])`, then
`Xor(Xors(otherBlocks), r)`. -/
def GetResponse_val (computeResponse : List Blk → List Nat → List Nat → List Nat)
    (BlockSize numServers self : Nat) (shares : Nat → List Nat)
    (allBlocks : List Blk) (mask secret : List Nat) : List Nat :=
  bXor (Xors (GetResponse_otherBlocks BlockSize numServers self shares))
    (computeResponse allBlocks mask secret)

/-- `GetResponse` (server.go 563-584), trace: one receive from
`xorsChan[j][cmask.Id]` per `j ≠ self` (joined by `wg.Wait()`), then the
receive on `blocksRdy[cmask.Id]`, then the return. -/
def GetResponse_trace (numServers self cid : Nat) : List Event :=
  (((List.range numServers).filter (fun j => j ≠ self)).map
      (fun j => Event.recvXors j cid))
    ++ [Event.recvBlocksRdy cid, Event.ret]

/-- Spec-side reading of C1's share combination: the XOR, over the servers
`j ≠ self`, of byte `k` of the share received from server `j`. -/
def xorShareByte (numServers self k : Nat) (shares : Nat → List Nat) : Nat :=
  (((List.range numServers).filter (fun j => j ≠ self)).map
      (fun j => (shares j).getD k 0)).foldl Nat.xor 0

/-! ### `PutUploadedBlocks` (claim C2) -/

/-- `PutUploadedBlocks` (server.go 594-609), value part:
`upHashes[i] = Suite.Hash().Sum(blocks[i].Block)` for every index of
`blocks`; the hash is the external black box `hash`. -/
def PutUploadedBlocks_upHashes (hash : List Nat → List Nat)
    (blocks : List Blk) : List (List Nat) :=
  blocks.map (fun b => hash b.Block)

/-- `PutUploadedBlocks` (server.go 594-609), trace: the hash loop populates
every `upHashes[j]` first; the `upHashesRdy[i]` signal goroutines are
spawned only afterwards, for hosted clients; then `blocks` is sent on
`dblocksChan`. -/
def PutUploadedBlocks_trace (numClients self : Nat) (clientMap : Nat → Nat)
    (blocks : List Blk) : List Event :=
  ((List.range blocks.length).map Event.setUpHash)
    ++ (((List.range numClients).filter (fun i => clientMap i = self)).map
          Event.signalUpHashesRdy)
    ++ [Event.sendDblocks]

/-! ### The shuffle hop (claims C4, C8) -/

/-- `shuffle` (server.go 355-397), value part: `pi := GeneratePI(totalClients,
rand)` is sampled once; every chunk `i` is processed by
`Shuffle2(pi, …, Xs[i], Ys[i], …)` with that same `pi`, and its outputs are
layer-decrypted pointwise. `shuffle2` and `decrypt` are the external
`shuffle.Shuffle2` (with group, key and PRNG fixed) and `lib.Decrypt` (with
the group and `sk` fixed). -/
def shuffle_model {α : Type}
    (shuffle2 : List Nat → List α → List α → List α × List α)
    (decrypt : α → α → α) (generatePI : Nat → List Nat) (totalClients : Nat)
    (Xs Ys : List (List α)) :
    List (List α) × List (List α) × List (List α) :=
  let pi := generatePI totalClients
  let pairs := (List.zip Xs Ys).map (fun xy => shuffle2 pi xy.1 xy.2)
  (pairs.map Prod.fst, pairs.map Prod.snd,
    pairs.map (fun p => List.zipWith decrypt p.1 p.2))

/-- `shuffle` (server.go 355-397), trace: the permutation is sampled before
the per-chunk goroutine fan-out; each chunk's shuffle event records the
permutation it was passed. -/
def shuffle_trace (generatePI : Nat → List Nat) (totalClients numChunks : Nat) :
    List Event :=
  Event.samplePI (generatePI totalClients) ::
    (List.range numChunks).map
      (fun c => Event.shuffleChunk c (generatePI totalClients))

/-- Recognizer for permutation-sampling events. -/
def isSamplePI : Event → Bool
  | .samplePI _ => true
  | _ => false

/-- Failure modes of the `shuffleUploads` intake stage. -/
inductive ShuffleErr where
  | indexOutOfRange
  | chunkMismatch
  deriving DecidableEq, Repr

/-- `shuffleUploads` intake and transpose (server.go 278-307):
`numBlockChunks := len(allUploads[0].BC1)` (index panic on an empty batch),
`panic("Different chunk lengths")` when any upload's `BC1` length differs,
otherwise the batch is transposed into `numBlockChunks` columns
`BXs[i][j] = Unmarshal(allUploads[j].BC1[i])`,
`BYs[i][j] = Unmarshal(allUploads[j].BC2[i])`, each of length
`totalClients = |allUploads|`.  An out-of-bounds `BC2[i]` read (a Go index
panic) is rendered by `getD`; the claim's hypotheses keep those reads in
bounds. -/
def shuffleUploads_transpose {P : Type} (unmarshal : List Nat → P)
    (dfltBytes : List Nat) (allUploads : List UpBlock) :
    Except ShuffleErr (List (List P) × List (List P)) :=
  match allUploads.head? with
  | none => .error .indexOutOfRange
  | some u0 =>
    let numBlockChunks := u0.BC1.length
    if allUploads.all (fun u => u.BC1.length = numBlockChunks) then
      .ok ((List.range numBlockChunks).map (fun i =>
              allUploads.map (fun u => unmarshal (u.BC1.getD i dfltBytes))),
            (List.range numBlockChunks).map (fun i =>
              allUploads.map (fun u => unmarshal (u.BC2.getD i dfltBytes))))
    else .error .chunkMismatch

/-! ### Registration: `Register` (claim C7) -/

/-- `Register` (server.go 404-419) with `RegisterDone` (430-437) inlined,
sequentially: under `regLock[0]`, `*clientId = s.totalClients` and
`s.totalClients++`; then `Register2(client)` is sent to every server
(itself included); finally, when the counter has reached `NumClients`,
`RegisterDone2(s.totalClients)` is broadcast to every server.  Returns the
assigned id, the new counter, and the trace. -/
def Register_model (NumClients numServers totalClients : Nat) :
    Nat × Nat × List Event :=
  let assigned := totalClients
  let newTotal := totalClients + 1
  (assigned, newTotal,
    [Event.lockReg 0, Event.assignId assigned, Event.incCounter,
      Event.unlockReg 0]
      ++ (List.range numServers).map Event.sendRegister2
      ++ (if newTotal = NumClients then
            (List.range numServers).map
              (fun j => Event.sendRegisterDone2 j newTotal)
          else []))

/-! ## Helper lemmas -/

lemma mapRange_getD {α : Type} (f : Nat → α) (n j : Nat) (d : α)
    (h : j < n) :
    ((List.range n).map f).getD j d = f j := by
  rw [List.getD_eq_getElem _ _ (by simpa using h)]
  simp

/-- A run of exported methods containing no `RegisterDone2` leaves nil
`masks` and `secrets` slices nil. -/
lemma runOps_no_registerDone2_nil (SecretSize : Nat) :
    ∀ (ops : List Op) (st st' : SrvState),
      (∀ n, Op.registerDone2 n ∉ ops) →
      st.masks = [] → st.secrets = [] →
      runOps SecretSize ops st = some st' →
      st'.masks = [] ∧ st'.secrets = [] := by
  intro ops
  induction ops with
  | nil =>
    intro st st' _ hm hs hrun
    cases hrun
    exact ⟨hm, hs⟩
  | cons op ops ih =>
    intro st st' hno hm hs hrun
    have hno' : ∀ n, Op.registerDone2 n ∉ ops := by
      intro n hmem
      exact hno n (List.mem_cons_of_mem _ hmem)
    cases op with
    | registerDone2 n => exact absurd (List.mem_cons_self _ _) (hno n)
    | shareMask cid bytes =>
      rw [runOps] at hrun
      simp only [applyOp, shareMaskWrite, listSet?, hm] at hrun
      simp at hrun
    | shareSecretOp cid bytes =>
      rw [runOps] at hrun
      simp only [applyOp, shareSecretWrite, listSet?, hs] at hrun
      simp at hrun
    | register =>
      rw [runOps] at hrun
      simp only [applyOp, Option.some_bind] at hrun
      exact ih st st' hno' hm hs hrun
    | register2 =>
      rw [runOps] at hrun
      simp only [applyOp, Option.some_bind] at hrun
      exact ih st st' hno' hm hs hrun
    | registerDone =>
      rw [runOps] at hrun
      simp only [applyOp, Option.some_bind] at hrun
      exact ih st st' hno' hm hs hrun
    | getNumClients =>
      rw [runOps] at hrun
      simp only [applyOp, Option.some_bind] at hrun
      exact ih st st' hno' hm hs hrun
    | getPK =>
      rw [runOps] at hrun
      simp only [applyOp, Option.some_bind] at hrun
      exact ih st st' hno' hm hs hrun
    | requestBlock =>
      rw [runOps] at hrun
      simp only [applyOp, Option.some_bind] at hrun
      exact ih st st' hno' hm hs hrun
    | shareRequest =>
      rw [runOps] at hrun
      simp only [applyOp, Option.some_bind] at hrun
      exact ih st st' hno' hm hs hrun
    | getReqHashes =>
      rw [runOps] at hrun
      simp only [applyOp, Option.some_bind] at hrun
      exact ih st st' hno' hm hs hrun
    | uploadBlock =>
      rw [runOps] at hrun
      simp only [applyOp, Option.some_bind] at hrun
      exact ih st st' hno' hm hs hrun
    | uploadBlock2 =>
      rw [runOps] at hrun
      simp only [applyOp, Option.some_bind] at hrun
      exact ih st st' hno' hm hs hrun
    | shuffleBlocks =>
      rw [runOps] at hrun
      simp only [applyOp, Option.some_bind] at hrun
      exact ih st st' hno' hm hs hrun
    | getUpHashes =>
      rw [runOps] at hrun
      simp only [applyOp, Option.some_bind] at hrun
      exact ih st st' hno' hm hs hrun
    | getResponse =>
      rw [runOps] at hrun
      simp only [applyOp, Option.some_bind] at hrun
      exact ih st st' hno' hm hs hrun
    | putClientBlock =>
      rw [runOps] at hrun
      simp only [applyOp, Option.some_bind] at hrun
      exact ih st st' hno' hm hs hrun
    | putUploadedBlocks =>
      rw [runOps] at hrun
      simp only [applyOp, Option.some_bind] at hrun
      exact ih st st' hno' hm hs hrun

/-- Every exported method preserves the all-zero-secrets invariant. -/
lemma applyOp_preserves_allZero (SecretSize : Nat) (op : Op)
    (st st' : SrvState) (h : applyOp SecretSize op st = some st')
    (hz : SecretsAllZero SecretSize st) : SecretsAllZero SecretSize st' := by
  cases op with
  | registerDone2 n =>
    simp only [applyOp] at h
    cases h
    intro x hx
    exact List.eq_of_mem_replicate hx
  | shareMask cid bytes =>
    simp only [applyOp, shareMaskWrite, listSet?] at h
    split at h
    · simp only [Option.map_some'] at h
      cases h
      exact fun x hx => hz x hx
    · simp at h
  | shareSecretOp cid bytes =>
    simp only [applyOp, shareSecretWrite, listSet?] at h
    split at h
    case isTrue hc =>
      simp only [Option.some_bind] at h
      have hc2 : cid < (st.secrets.set cid bytes).length := by simpa using hc
      rw [if_pos hc2] at h
      simp only [Option.map_some'] at h
      cases h
      intro x hx
      obtain ⟨j, hj, hget⟩ := List.getElem_of_mem hx
      by_cases hjc : j = cid
      · subst hjc
        rw [List.getElem_set_self _] at hget
        exact hget.symm
      · rw [List.getElem_set_ne (fun hh => hjc hh.symm),
          List.getElem_set_ne (fun hh => hjc hh.symm)] at hget
        exact hget ▸ hz _ (List.getElem_mem _)
    case isFalse => simp at h
  | register => cases h; exact hz
  | register2 => cases h; exact hz
  | registerDone => cases h; exact hz
  | getNumClients => cases h; exact hz
  | getPK => cases h; exact hz
  | requestBlock => cases h; exact hz
  | shareRequest => cases h; exact hz
  | getReqHashes => cases h; exact hz
  | uploadBlock => cases h; exact hz
  | uploadBlock2 => cases h; exact hz
  | shuffleBlocks => cases h; exact hz
  | getUpHashes => cases h; exact hz
  | getResponse => cases h; exact hz
  | putClientBlock => cases h; exact hz
  | putUploadedBlocks => cases h; exact hz

lemma foldl_zipWith_length {α : Type} (f : α → α → α) :
    ∀ (rest : List (List α)) (b : List α),
      (∀ r ∈ rest, r.length = b.length) →
      (rest.foldl (List.zipWith f) b).length = b.length := by
  intro rest
  induction rest with
  | nil => intro b _; rfl
  | cons r rs ih =>
    intro b hlen
    have hr : r.length = b.length := hlen r (by simp)
    have h1 : (List.zipWith f b r).length = b.length := by
      rw [List.length_zipWith, hr]
      omega
    have h2 := ih (List.zipWith f b r)
      (fun r' hr' => by rw [h1]; exact hlen r' (List.mem_cons_of_mem _ hr'))
    rw [List.foldl_cons, h2, h1]

lemma foldl_zipWith_getD {α : Type} (f : α → α → α) (d : α) (k : Nat) :
    ∀ (rest : List (List α)) (b : List α),
      (∀ r ∈ rest, r.length = b.length) → k < b.length →
      (rest.foldl (List.zipWith f) b).getD k d
        = rest.foldl (fun a r => f a (r.getD k d)) (b.getD k d) := by
  intro rest
  induction rest with
  | nil => intro b _ _; rfl
  | cons r rs ih =>
    intro b hlen hk
    have hr : r.length = b.length := hlen r (by simp)
    have h1 : (List.zipWith f b r).length = b.length := by
      rw [List.length_zipWith, hr]
      omega
    have hz : (List.zipWith f b r).getD k d = f (b.getD k d) (r.getD k d) := by
      rw [List.getD_eq_getElem _ _ (by omega :
        k < (List.zipWith f b r).length)]
      rw [List.getElem_zipWith]
      rw [List.getD_eq_getElem _ _ hk,
        List.getD_eq_getElem _ _ (by omega : k < r.length)]
    rw [List.foldl_cons, List.foldl_cons]
    rw [ih (List.zipWith f b r)
      (fun r' hr' => by rw [h1]; exact hlen r' (List.mem_cons_of_mem _ hr'))
      (by omega), hz]

lemma Xors_length (B : Nat) (bs : List (List Nat))
    (hB : ∀ b ∈ bs, b.length = B) (hne : bs ≠ []) : (Xors bs).length = B := by
  cases bs with
  | nil => exact absurd rfl hne
  | cons b rest =>
    have hb : b.length = B := hB b (by simp)
    show (rest.foldl (List.zipWith Nat.xor) b).length = B
    rw [foldl_zipWith_length Nat.xor rest b
      (fun r hr => (hB r (List.mem_cons_of_mem _ hr)).trans hb.symm)]
    exact hb

lemma Xors_getD (B k : Nat) (hk : k < B) (bs : List (List Nat))
    (hB : ∀ b ∈ bs, b.length = B) (hne : bs ≠ []) :
    (Xors bs).getD k 0 = (bs.map (fun b => b.getD k 0)).foldl Nat.xor 0 := by
  cases bs with
  | nil => exact absurd rfl hne
  | cons b rest =>
    have hb : b.length = B := hB b (by simp)
    show (rest.foldl (List.zipWith Nat.xor) b).getD k 0
      = ((b :: rest).map (fun b => b.getD k 0)).foldl Nat.xor 0
    rw [List.map_cons, List.foldl_cons]
    have hz0 : Nat.xor 0 (b.getD k 0) = b.getD k 0 := Nat.zero_xor _
    rw [hz0]
    rw [foldl_zipWith_getD Nat.xor 0 k rest b
      (fun r hr => (hB r (List.mem_cons_of_mem _ hr)).trans hb.symm)
      (by omega)]
    rw [List.foldl_map]

lemma XorsDC_getD (L k : Nat) (hk : k < L) (rows : List (List (List Nat)))
    (hL : ∀ r ∈ rows, r.length = L) (hne : rows ≠ []) :
    (XorsDC rows).getD k [] = Xors (rows.map (fun r => r.getD k [])) ∧
    (XorsDC rows).length = L := by
  cases rows with
  | nil => exact absurd rfl hne
  | cons r rest =>
    have hr : r.length = L := hL r (by simp)
    constructor
    · show (rest.foldl (List.zipWith bXor) r).getD k []
        = Xors ((r :: rest).map (fun row => row.getD k []))
      rw [foldl_zipWith_getD bXor [] k rest r
        (fun r' h' => (hL r' (List.mem_cons_of_mem _ h')).trans hr.symm)
        (by omega)]
      show rest.foldl (fun a row => bXor a (row.getD k [])) (r.getD k [])
        = (rest.map (fun row => row.getD k [])).foldl bXor (r.getD k [])
      rw [List.foldl_map]
    · show (rest.foldl (List.zipWith bXor) r).length = L
      rw [foldl_zipWith_length bXor rest r
        (fun r' h' => (hL r' (List.mem_cons_of_mem _ h')).trans hr.symm)]
      exact hr

lemma foldl_xor_skip_zero (g : Nat → Nat) (self : Nat) (hg : g self = 0) :
    ∀ (js : List Nat) (a : Nat),
      js.foldl (fun acc j => Nat.xor acc (g j)) a
        = (js.filter (fun j => j ≠ self)).foldl
            (fun acc j => Nat.xor acc (g j)) a := by
  intro js
  induction js with
  | nil => intro a; rfl
  | cons j rest ih =>
    intro a
    by_cases hj : j = self
    · subst hj
      rw [List.foldl_cons, hg]
      have hz0 : Nat.xor a 0 = a := Nat.xor_zero a
      rw [hz0, List.filter_cons_of_neg (by simp)]
      exact ih a
    · rw [List.foldl_cons, List.filter_cons_of_pos (by simp [hj]),
        List.foldl_cons]
      exact ih _

lemma XorsDC_length (L : Nat) (rows : List (List (List Nat)))
    (hL : ∀ r ∈ rows, r.length = L) (hne : rows ≠ []) :
    (XorsDC rows).length = L := by
  cases rows with
  | nil => exact absurd rfl hne
  | cons r rest =>
    have hr : r.length = L := hL r (by simp)
    show (rest.foldl (List.zipWith bXor) r).length = L
    rw [foldl_zipWith_length bXor rest r
      (fun r' h' => (hL r' (List.mem_cons_of_mem _ h')).trans hr.symm)]
    exact hr

/-! ## Theorems -/

/-- C6: after `ConnectServers`, on a server with `id < N-1` the field
`nextPk` equals the group sum of the public keys of all servers with index
in `{id, …, N-1}` (self-inclusive); on the last server (`id = N-1`) it
equals that server's own public key only. -/
theorem C6_connectServers_nextPk {P : Type} (add : P → P → P) (dflt : P)
    (pk : P) (pks : List P) (id : Nat) (hid : id < pks.length) :
    (id < pks.length - 1 →
      connectNextPk add dflt pk pks id = sumKeys add dflt (pks.drop id)) ∧
    (id = pks.length - 1 → connectNextPk add dflt pk pks id = pk) := by
  constructor
  · intro hlt
    unfold connectNextPk
    rw [if_pos (by omega)]
    exact connectNextPk_loop_eq add dflt pks id hid
  · intro heq
    unfold connectNextPk
    rw [if_neg (by omega)]

theorem C6_connectServers_nextPk_witness :
    connectNextPk Nat.add 0 7 [10, 20, 30] 0 = 60 ∧
    connectNextPk Nat.add 0 7 [10, 20, 30] 2 = 7 := by
  constructor
  · have h := (C6_connectServers_nextPk Nat.add 0 7 [10, 20, 30] 0
      (by decide)).1 (by decide)
    rw [h]; decide
  · exact (C6_connectServers_nextPk Nat.add 0 7 [10, 20, 30] 2
      (by decide)).2 (by decide)

/-- C3: when `ShareSecret` returns, `secrets[clientDH.Id]` is the all-zero
byte string of length `SecretSize` — the marshalled DH shared point
`clientPub·e` is stored and then immediately overwritten with zeros — and
the returned `serverPub` is the marshalled point `g·e` for the freshly
sampled ephemeral scalar `e` whose shared point was `clientPub·e`. -/
theorem C3_ShareSecret_zeroed {P S : Type} (SecretSize : Nat)
    (marshal : P → List Nat) (base : P) (ptMul : P → S → P) (e : S)
    (cid : Nat) (clientPub : P) (st st' : SrvState) (pub : List Nat)
    (h : ShareSecret? SecretSize marshal base ptMul e cid clientPub st
          = some (st', pub)) :
    st'.secrets
        = (st.secrets.set cid (marshal (ptMul clientPub e))).set cid
            (List.replicate SecretSize 0) ∧
    st'.secrets.getD cid [] = List.replicate SecretSize 0 ∧
    (st'.secrets.getD cid []).length = SecretSize ∧
    pub = marshal (ptMul base e) := by
  by_cases hc : cid < st.secrets.length
  · have hc2 : cid <
        (st.secrets.set cid (marshal (ptMul clientPub e))).length := by
      simpa using hc
    have hcomp : ShareSecret? SecretSize marshal base ptMul e cid clientPub st
        = some (⟨st.masks,
            (st.secrets.set cid (marshal (ptMul clientPub e))).set cid
              (List.replicate SecretSize 0), st.regDone⟩,
            marshal (ptMul base e)) := by
      simp [ShareSecret?, shareSecretWrite, listSet?, shareSecret, hc, hc2]
    rw [hcomp] at h
    injection h with h1
    obtain ⟨h2, h3⟩ := Prod.ext_iff.mp h1
    simp only at h2 h3
    rw [← h2, ← h3]
    refine ⟨rfl, ?_, ?_, rfl⟩
    · rw [List.getD_eq_getElem _ _ (by simpa using hc)]
      simp [List.getElem_set]
    · rw [List.getD_eq_getElem _ _ (by simpa using hc)]
      simp [List.getElem_set]
  · have hcomp : ShareSecret? SecretSize marshal base ptMul e cid clientPub st
        = none := by
      simp [ShareSecret?, shareSecretWrite, listSet?, shareSecret, hc]
    rw [hcomp] at h
    exact absurd h (by simp)

theorem C3_ShareSecret_zeroed_witness :
    ([[0, 0], [0, 0], [0, 0]] : List (List Nat)).getD 1 []
        = List.replicate 2 0 ∧
    ([6] : List Nat) = [2 * 3] := by
  have h : ShareSecret? 2 (fun p => [p]) 2 (· * ·) 3 1 5
      (RegisterDone2_model 2 3 newServerState)
      = some (⟨[[0, 0], [0, 0], [0, 0]], [[0, 0], [0, 0], [0, 0]], true⟩,
              [6]) := by decide
  have hc := C3_ShareSecret_zeroed 2 (fun p => [p]) 2 (· * ·) 3 1 5 _ _ _ h
  exact ⟨hc.2.1, hc.2.2.2⟩

/-- C7: `Register` assigns to `clientId` the current value of the counter
`totalClients` and increments it by one, both strictly between the lock and
unlock of the registration mutex `regLock[0]`; it then broadcasts
`Register2` to every server including itself; and exactly when the counter
reaches `NumClients` it broadcasts `RegisterDone2(totalClients)` to every
server. -/
theorem C7_Register (NumClients numServers totalClients : Nat) :
    (Register_model NumClients numServers totalClients).1 = totalClients ∧
    (Register_model NumClients numServers totalClients).2.1
        = totalClients + 1 ∧
    (Register_model NumClients numServers totalClients).2.2.getD 0 Event.ret
        = Event.lockReg 0 ∧
    (Register_model NumClients numServers totalClients).2.2.getD 1 Event.ret
        = Event.assignId totalClients ∧
    (Register_model NumClients numServers totalClients).2.2.getD 2 Event.ret
        = Event.incCounter ∧
    (Register_model NumClients numServers totalClients).2.2.getD 3 Event.ret
        = Event.unlockReg 0 ∧
    (∀ j, j < numServers → Event.sendRegister2 j
        ∈ (Register_model NumClients numServers totalClients).2.2) ∧
    (∀ j, Event.sendRegister2 j
        ∈ (Register_model NumClients numServers totalClients).2.2 →
      j < numServers) ∧
    (totalClients + 1 = NumClients →
      ∀ j, j < numServers → Event.sendRegisterDone2 j (totalClients + 1)
        ∈ (Register_model NumClients numServers totalClients).2.2) ∧
    (totalClients + 1 ≠ NumClients →
      ∀ j n, Event.sendRegisterDone2 j n
        ∉ (Register_model NumClients numServers totalClients).2.2) := by
  refine ⟨rfl, rfl, rfl, rfl, rfl, rfl, ?_, ?_, ?_, ?_⟩
  · intro j hj
    simp [Register_model, hj]
  · intro j hj
    simp only [Register_model, List.mem_append, List.mem_cons,
      List.mem_map, List.mem_range, List.not_mem_nil] at hj
    rcases hj with (h | h) | h
    · simp at h
    · obtain ⟨a, ha, he⟩ := h
      cases he; exact ha
    · split at h
      · obtain ⟨a, _, he⟩ := List.mem_map.mp h
        cases he
      · simp at h
  · intro hreach j hj
    simp [Register_model, if_pos hreach, hj]
  · intro hmiss j n hj
    simp only [Register_model, List.mem_append, List.mem_cons,
      List.mem_map, List.mem_range, List.not_mem_nil] at hj
    rcases hj with (h | h) | h
    · simp at h
    · obtain ⟨a, _, he⟩ := h
      cases he
    · rw [if_neg hmiss] at h
      simp at h

/-- C9: `RegisterDone2` initializes every `secrets[i]` to the all-zero byte
string of length `SecretSize`; every exported operation preserves this
invariant (`ShareSecret` overwrites its stored value with fresh zeros, and
no other operation writes `secrets`); consequently the `secrets[i]`
argument passed to `ComputeResponse` in `handleResponse` and `GetResponse`
is always the all-zero secret. -/
theorem C9_secrets_always_zero (SecretSize : Nat) :
    (∀ numClients st,
        SecretsAllZero SecretSize
          (RegisterDone2_model SecretSize numClients st)) ∧
    (∀ op st st', applyOp SecretSize op st = some st' →
        SecretsAllZero SecretSize st → SecretsAllZero SecretSize st') ∧
    (∀ ops st st', runOps SecretSize ops st = some st' →
        SecretsAllZero SecretSize st → SecretsAllZero SecretSize st') ∧
    (∀ st i, SecretsAllZero SecretSize st → i < st.secrets.length →
        responseSecretArg st i = List.replicate SecretSize 0) := by
  refine ⟨?_, applyOp_preserves_allZero SecretSize, ?_, ?_⟩
  · intro numClients st x hx
    exact List.eq_of_mem_replicate hx
  · intro ops
    induction ops with
    | nil =>
      intro st st' hrun hz
      cases hrun
      exact hz
    | cons op ops ih =>
      intro st st' hrun hz
      rw [runOps] at hrun
      cases hop : applyOp SecretSize op st with
      | none => rw [hop] at hrun; simp at hrun
      | some st1 =>
        rw [hop] at hrun
        simp only [Option.some_bind] at hrun
        exact ih st1 st' hrun (applyOp_preserves_allZero SecretSize op st st1 hop hz)
  · intro st i hz hi
    unfold responseSecretArg
    rw [List.getD_eq_getElem _ _ hi]
    exact hz _ (List.getElem_mem _)

theorem C9_secrets_always_zero_witness :
    SecretsAllZero 2 ⟨[[0, 0]], [[0, 0]], true⟩ ∧
    responseSecretArg ⟨[[0, 0]], [[0, 0]], true⟩ 0 = List.replicate 2 0 := by
  have hrun : runOps 2 [Op.shareSecretOp 0 [9, 9], Op.getResponse]
      (RegisterDone2_model 2 1 newServerState)
      = some ⟨[[0, 0]], [[0, 0]], true⟩ := by decide
  have h1 := (C9_secrets_always_zero 2).2.2.1
    [Op.shareSecretOp 0 [9, 9], Op.getResponse]
    (RegisterDone2_model 2 1 newServerState) ⟨[[0, 0]], [[0, 0]], true⟩ hrun
    (by decide)
  exact ⟨h1, (C9_secrets_always_zero 2).2.2.2 ⟨[[0, 0]], [[0, 0]], true⟩ 0 h1
    (by decide)⟩

/-- C10: invoked before `RegisterDone2` has executed (so after any run of
exported methods that does not include it), `ShareMask` and `ShareSecret`
write into the still-nil `masks`/`secrets` slice and fault; once
`RegisterDone2` has completed with `cid < numClients`, both writes are in
bounds and the operations complete without error. -/
theorem C10_ShareMask_ShareSecret_bounds (SecretSize : Nat) :
    (∀ ops st cid bytes, (∀ n, Op.registerDone2 n ∉ ops) →
        runOps SecretSize ops newServerState = some st →
        shareMaskWrite st cid bytes = none ∧
        shareSecretWrite SecretSize st cid bytes = none) ∧
    (∀ numClients st cid bytes, cid < numClients →
        (shareMaskWrite (RegisterDone2_model SecretSize numClients st) cid
            bytes).isSome ∧
        (shareSecretWrite SecretSize
            (RegisterDone2_model SecretSize numClients st) cid
            bytes).isSome) := by
  constructor
  · intro ops st cid bytes hno hrun
    obtain ⟨hm, hs⟩ := runOps_no_registerDone2_nil SecretSize ops
      newServerState st hno rfl rfl hrun
    constructor
    · simp [shareMaskWrite, listSet?, hm]
    · simp [shareSecretWrite, listSet?, hs]
  · intro numClients st cid bytes hcid
    have hm : cid < (RegisterDone2_model SecretSize numClients st).masks.length := by
      simpa [RegisterDone2_model] using hcid
    have hs : cid < (RegisterDone2_model SecretSize numClients st).secrets.length := by
      simpa [RegisterDone2_model] using hcid
    constructor
    · simp [shareMaskWrite, listSet?, hm]
    · have hs2 : cid <
          ((RegisterDone2_model SecretSize numClients st).secrets.set cid
            bytes).length := by
        simpa using hs
      simp [shareSecretWrite, listSet?, hs, hs2]

theorem C10_ShareMask_ShareSecret_bounds_witness :
    shareMaskWrite newServerState 0 [7] = none ∧
    shareSecretWrite 2 newServerState 0 [7] = none ∧
    (shareMaskWrite (RegisterDone2_model 2 1 newServerState) 0 [7]).isSome ∧
    (shareSecretWrite 2 (RegisterDone2_model 2 1 newServerState) 0
        [7]).isSome := by
  have h1 := (C10_ShareMask_ShareSecret_bounds 2).1
    [Op.getPK, Op.shareRequest] newServerState 0 [7]
    (by intro n hmem; simp at hmem) (by decide)
  have h2 := (C10_ShareMask_ShareSecret_bounds 2).2 1 newServerState 0 [7]
    (by decide)
  exact ⟨h1.1, h1.2, h2.1, h2.2⟩

theorem C7_Register_witness :
    (Register_model 2 2 1).1 = 1 ∧
    Event.sendRegister2 0 ∈ (Register_model 2 2 1).2.2 ∧
    Event.sendRegisterDone2 1 2 ∈ (Register_model 2 2 1).2.2 :=
  ⟨(C7_Register 2 2 1).1,
   (C7_Register 2 2 1).2.2.2.2.2.2.1 0 (by decide),
   (C7_Register 2 2 1).2.2.2.2.2.2.2.2.1 (by decide) 1 (by decide)⟩

/-- C8: on a (nonempty) gathered batch, `shuffleUploads` hits the
`"Different chunk lengths"` panic exactly when some upload's chunk count
differs from the others; when every upload has the same chunk count `C`
(with its `BC2` paired to its `BC1`), the hop proceeds and the batch is
transposed into `C` columns each of length `totalClients = |allUploads|`. -/
theorem C8_shuffleUploads_chunkCheck {P : Type} (unmarshal : List Nat → P)
    (dfltBytes : List Nat) (allUploads : List UpBlock)
    (hne : 0 < allUploads.length) :
    (shuffleUploads_transpose unmarshal dfltBytes allUploads
        = .error .chunkMismatch
      ↔ ¬ ∃ C, ∀ u ∈ allUploads, u.BC1.length = C) ∧
    (∀ C, (∀ u ∈ allUploads, u.BC1.length = C) →
      (∀ u ∈ allUploads, u.BC2.length = u.BC1.length) →
      ∃ cols,
        shuffleUploads_transpose unmarshal dfltBytes allUploads
            = .ok cols ∧
        cols.1.length = C ∧ cols.2.length = C ∧
        (∀ col ∈ cols.1, col.length = allUploads.length) ∧
        (∀ col ∈ cols.2, col.length = allUploads.length) ∧
        (∀ c, c < C → cols.1.getD c []
            = allUploads.map (fun u => unmarshal (u.BC1.getD c dfltBytes))) ∧
        (∀ c, c < C → cols.2.getD c []
            = allUploads.map (fun u => unmarshal (u.BC2.getD c dfltBytes)))) := by
  obtain ⟨u0, us, rfl⟩ : ∃ u0 us, allUploads = u0 :: us := by
    cases allUploads with
    | nil => simp at hne
    | cons a l => exact ⟨a, l, rfl⟩
  constructor
  · by_cases hall : ∀ u ∈ u0 :: us, u.BC1.length = u0.BC1.length
    · have hcond : (u0 :: us).all (fun u => u.BC1.length = u0.BC1.length) := by
        rw [List.all_eq_true]
        intro u hu
        exact decide_eq_true (hall u hu)
      constructor
      · intro habs
        simp only [shuffleUploads_transpose, List.head?_cons, hcond,
          if_true] at habs
        exact Except.noConfusion habs
      · intro habs
        exact absurd ⟨u0.BC1.length, hall⟩ habs
    · have hcond : ¬ (u0 :: us).all (fun u => u.BC1.length = u0.BC1.length) := by
        rw [List.all_eq_true]
        intro hforall
        exact hall (fun u hu => of_decide_eq_true (hforall u hu))
      constructor
      · intro _
        rintro ⟨C, hC⟩
        have hC0 : C = u0.BC1.length := (hC u0 (by simp)).symm
        exact hall (fun u hu => (hC u hu).trans hC0)
      · intro _
        simp only [shuffleUploads_transpose, List.head?_cons]
        rw [if_neg (by simpa using hcond)]
  · intro C hC hbc2
    have hC0 : u0.BC1.length = C := hC u0 (by simp)
    have hcond : (u0 :: us).all (fun u => u.BC1.length = u0.BC1.length) := by
      rw [List.all_eq_true]
      intro u hu
      exact decide_eq_true ((hC u hu).trans hC0.symm)
    refine ⟨((List.range u0.BC1.length).map (fun i =>
          (u0 :: us).map (fun u => unmarshal (u.BC1.getD i dfltBytes))),
        (List.range u0.BC1.length).map (fun i =>
          (u0 :: us).map (fun u => unmarshal (u.BC2.getD i dfltBytes)))),
      ?_, ?_, ?_, ?_, ?_, ?_, ?_⟩
    · simp only [shuffleUploads_transpose, List.head?_cons, hcond, if_true]
    · simpa using hC0
    · simpa using hC0
    · intro col hcol
      obtain ⟨c, _, rfl⟩ := List.mem_map.mp hcol
      simp
    · intro col hcol
      obtain ⟨c, _, rfl⟩ := List.mem_map.mp hcol
      simp
    · intro c hc
      exact mapRange_getD _ _ _ _ (hC0 ▸ hc)
    · intro c hc
      exact mapRange_getD _ _ _ _ (hC0 ▸ hc)

theorem C8_shuffleUploads_chunkCheck_witness :
    shuffleUploads_transpose (fun b => b) []
        [⟨[[1]], [[2]]⟩, ⟨[[3], [4]], [[5], [6]]⟩]
        = .error .chunkMismatch ∧
    shuffleUploads_transpose (fun b => b) [] [⟨[[1]], [[2]]⟩, ⟨[[3]], [[4]]⟩]
        ≠ .error .chunkMismatch := by
  constructor
  · exact (C8_shuffleUploads_chunkCheck (fun b => b) []
      [⟨[[1]], [[2]]⟩, ⟨[[3], [4]], [[5], [6]]⟩] (by decide)).1.mpr
      (by rintro ⟨C, hC⟩
          have h1 := hC ⟨[[1]], [[2]]⟩ (by simp)
          have h2 := hC ⟨[[3], [4]], [[5], [6]]⟩ (by simp)
          simp at h1 h2
          omega)
  · intro habs
    exact ((C8_shuffleUploads_chunkCheck (fun b => b) []
      [⟨[[1]], [[2]]⟩, ⟨[[3]], [[4]]⟩] (by decide)).1.mp habs)
      ⟨1, by intro u hu; fin_cases hu <;> rfl⟩

/-- C2: `PutUploadedBlocks` sets `upHashes[j] = H(blocks[j].Block)` for
every index `j` — the hash of exactly the block's bytes; `upHashesRdy[i]`
is signaled only for clients `i` with `clientMap[i] = self`, and every
signal comes only after `upHashes` has been populated for all indices;
`blocks` is then delivered to `dblocksChan` (the trace's final event). -/
theorem C2_PutUploadedBlocks (hash : List Nat → List Nat)
    (numClients self : Nat) (clientMap : Nat → Nat) (blocks : List Blk) :
    (∀ j, j < blocks.length →
        (PutUploadedBlocks_upHashes hash blocks).getD j []
          = hash ((blocks.getD j ⟨[], 0⟩).Block)) ∧
    (PutUploadedBlocks_upHashes hash blocks).length = blocks.length ∧
    (∀ i, Event.signalUpHashesRdy i
          ∈ PutUploadedBlocks_trace numClients self clientMap blocks →
        clientMap i = self) ∧
    (∀ i, i < numClients → clientMap i = self →
        Event.signalUpHashesRdy i
          ∈ PutUploadedBlocks_trace numClients self clientMap blocks) ∧
    (∀ k i, (PutUploadedBlocks_trace numClients self clientMap blocks).getD k
          Event.ret = Event.signalUpHashesRdy i →
        ∀ j, j < blocks.length → ∃ m, m < k ∧
          (PutUploadedBlocks_trace numClients self clientMap blocks).getD m
            Event.ret = Event.setUpHash j) ∧
    (PutUploadedBlocks_trace numClients self clientMap blocks).getLast?
        = some Event.sendDblocks := by
  refine ⟨?_, ?_, ?_, ?_, ?_, ?_⟩
  · intro j hj
    have hj' : j < (PutUploadedBlocks_upHashes hash blocks).length := by
      simpa [PutUploadedBlocks_upHashes] using hj
    rw [List.getD_eq_getElem _ _ hj', List.getD_eq_getElem _ _ hj]
    simp [PutUploadedBlocks_upHashes]
  · simp [PutUploadedBlocks_upHashes]
  · intro i hi
    simp only [PutUploadedBlocks_trace, List.append_assoc, List.mem_append,
      List.mem_map, List.mem_range, List.mem_filter, List.mem_cons,
      List.not_mem_nil, or_false, decide_eq_true_eq] at hi
    rcases hi with h | h | h
    · obtain ⟨a, _, he⟩ := h
      cases he
    · obtain ⟨a, ⟨_, hsel⟩, he⟩ := h
      cases he
      exact hsel
    · cases h
  · intro i hi hsel
    simp only [PutUploadedBlocks_trace, List.append_assoc, List.mem_append,
      List.mem_map, List.mem_range, List.mem_filter, List.mem_cons,
      List.not_mem_nil, or_false, decide_eq_true_eq]
    exact Or.inr (Or.inl ⟨i, ⟨hi, hsel⟩, rfl⟩)
  · intro k i hk j hj
    rw [PutUploadedBlocks_trace] at hk
    have hklen : blocks.length ≤ k := by
      by_contra hklt
      push_neg at hklt
      rw [List.getD_append _ _ _ _ (by simp; omega),
        List.getD_append _ _ _ _ (by simpa using hklt),
        mapRange_getD _ _ _ _ hklt] at hk
      exact Event.noConfusion hk
    refine ⟨j, by omega, ?_⟩
    rw [PutUploadedBlocks_trace,
      List.getD_append _ _ _ _ (by simp; omega),
      List.getD_append _ _ _ _ (by simpa using hj),
      mapRange_getD _ _ _ _ hj]
  · rw [PutUploadedBlocks_trace, List.getLast?_concat]

theorem C2_PutUploadedBlocks_witness :
    (PutUploadedBlocks_upHashes (fun b => [b.length])
        [⟨[1, 2], 0⟩, ⟨[3], 0⟩]).getD 0 [] = [2] ∧
    Event.signalUpHashesRdy 0
      ∈ PutUploadedBlocks_trace 2 0 (fun i => i % 2) [⟨[1, 2], 0⟩, ⟨[3], 0⟩] := by
  have h := C2_PutUploadedBlocks (fun b => [b.length]) 2 0 (fun i => i % 2)
    [⟨[1, 2], 0⟩, ⟨[3], 0⟩]
  exact ⟨h.1 0 (by decide), h.2.2.2.1 0 (by decide) (by decide)⟩

/-- C4: within one invocation of `shuffle`, the permutation is sampled
exactly once (`GeneratePI` appears once in the trace, at position 0, before
every per-chunk event), every chunk event carries that same permutation,
and every chunk's outputs are `Shuffle2` applied with that single
permutation, so all chunks of the round use the same permutation of client
positions. -/
theorem C4_shuffle_single_permutation {α : Type}
    (shuffle2 : List Nat → List α → List α → List α × List α)
    (decrypt : α → α → α) (generatePI : Nat → List Nat)
    (totalClients numChunks : Nat) (Xs Ys : List (List α)) :
    (shuffle_trace generatePI totalClients numChunks).countP isSamplePI = 1 ∧
    (shuffle_trace generatePI totalClients numChunks).getD 0 Event.ret
        = Event.samplePI (generatePI totalClients) ∧
    (∀ k c p, (shuffle_trace generatePI totalClients numChunks).getD k
          Event.ret = Event.shuffleChunk c p →
        0 < k ∧ p = generatePI totalClients) ∧
    (∀ c, c < numChunks → Event.shuffleChunk c (generatePI totalClients)
        ∈ shuffle_trace generatePI totalClients numChunks) ∧
    (∀ c, c < Xs.length → c < Ys.length →
      (shuffle_model shuffle2 decrypt generatePI totalClients Xs Ys).1.getD c []
          = (shuffle2 (generatePI totalClients) (Xs.getD c [])
              (Ys.getD c [])).1 ∧
      (shuffle_model shuffle2 decrypt generatePI totalClients Xs
            Ys).2.1.getD c []
          = (shuffle2 (generatePI totalClients) (Xs.getD c [])
              (Ys.getD c [])).2 ∧
      (shuffle_model shuffle2 decrypt generatePI totalClients Xs
            Ys).2.2.getD c []
          = List.zipWith decrypt
              (shuffle2 (generatePI totalClients) (Xs.getD c [])
                (Ys.getD c [])).1
              (shuffle2 (generatePI totalClients) (Xs.getD c [])
                (Ys.getD c [])).2) := by
  refine ⟨?_, rfl, ?_, ?_, ?_⟩
  · rw [shuffle_trace, List.countP_cons]
    have h0 : ((List.range numChunks).map
        (fun c => Event.shuffleChunk c (generatePI totalClients))).countP
          isSamplePI = 0 := by
      rw [List.countP_eq_zero]
      intro e he
      obtain ⟨c, _, rfl⟩ := List.mem_map.mp he
      simp [isSamplePI]
    rw [h0]
    simp [isSamplePI]
  · intro k c p hk
    cases k with
    | zero => exact absurd hk (by simp [shuffle_trace])
    | succ k' =>
      refine ⟨Nat.succ_pos _, ?_⟩
      rw [shuffle_trace, List.getD_cons_succ] at hk
      by_cases hkc : k' < numChunks
      · rw [mapRange_getD _ _ _ _ hkc] at hk
        cases hk
        rfl
      · rw [List.getD_eq_default _ _ (by simpa using hkc)] at hk
        exact Event.noConfusion hk
  · intro c hc
    simp [shuffle_trace, hc]
  · intro c h1 h2
    have hcz : c < (List.zip Xs Ys).length := by
      simp only [List.length_zip]
      omega
    refine ⟨?_, ?_, ?_⟩ <;>
    · simp only [shuffle_model]
      rw [List.getD_eq_getElem _ _ (by simpa using hcz)]
      simp only [List.getElem_map, List.getElem_zip]
      rw [List.getD_eq_getElem _ _ h1, List.getD_eq_getElem _ _ h2]

theorem C4_shuffle_single_permutation_witness :
    (shuffle_trace (fun n => [n, 0]) 2 2).countP isSamplePI = 1 ∧
    Event.shuffleChunk 1 [2, 0] ∈ shuffle_trace (fun n => [n, 0]) 2 2 ∧
    (shuffle_model (fun pi xs ys => (pi, xs ++ ys)) Nat.add (fun n => [n, 0])
        2 [[1], [2]] [[3], [4]]).1.getD 0 [] = [2, 0] := by
  have h := C4_shuffle_single_permutation (fun pi xs ys => (pi, xs ++ ys))
    Nat.add (fun n => [n, 0]) 2 2 [[1], [2]] [[3], [4]]
  exact ⟨h.1, h.2.2.2.1 1 (by decide), (h.2.2.2.2 0 (by decide) (by decide)).1⟩

/-- C5: in `handleRequest`, `reqHashes` is computed and published only after
one request share has been received from `requestsChan[i]` for every client
`i < totalClients` (the publish event sits strictly after every receive
event in the trace); `reqHashes` equals the elementwise XOR across all
clients' share vectors, preserving the inner dimension; `reqHashesRdy[i]`
is signaled only for clients with `clientMap[i] = self`, and after the
publish; and `GetReqHashes(id)` returns `reqHashes` only after its receive
on `reqHashesRdy[id]`. -/
theorem C5_handleRequest_ordering (totalClients self cid L : Nat)
    (clientMap : Nat → Nat) (requests : Nat → List (List Nat))
    (hL : ∀ i, i < totalClients → (requests i).length = L)
    (hpos : 0 < totalClients) :
    (handleRequest_reqHashes totalClients requests).length = L ∧
    (∀ k, k < L → (handleRequest_reqHashes totalClients requests).getD k []
        = Xors (((List.range totalClients).map requests).map
            (fun r => r.getD k []))) ∧
    (∀ i, i < totalClients →
        (handleRequest_trace totalClients self clientMap).getD i Event.ret
          = Event.recvRequest i) ∧
    (handleRequest_trace totalClients self clientMap).getD totalClients
        Event.ret = Event.publishReqHashes ∧
    (∀ i, Event.signalReqHashesRdy i
          ∈ handleRequest_trace totalClients self clientMap →
        clientMap i = self) ∧
    (∀ i, i < totalClients → clientMap i = self →
        Event.signalReqHashesRdy i
          ∈ handleRequest_trace totalClients self clientMap) ∧
    (∀ k i, (handleRequest_trace totalClients self clientMap).getD k Event.ret
          = Event.signalReqHashesRdy i → totalClients < k) ∧
    (GetReqHashes_trace cid).getD 0 Event.ret
        = Event.recvReqHashesRdy cid ∧
    (GetReqHashes_trace cid).getD 1 Event.ret = Event.ret ∧
    GetReqHashes_val (handleRequest_reqHashes totalClients requests)
        = handleRequest_reqHashes totalClients requests := by
  have hrows : ∀ r ∈ (List.range totalClients).map requests,
      r.length = L := by
    intro r hrr
    obtain ⟨i, hi, rfl⟩ := List.mem_map.mp hrr
    exact hL i (List.mem_range.mp hi)
  have hne : (List.range totalClients).map requests ≠ [] := by
    simp only [ne_eq, List.map_eq_nil_iff, List.range_eq_nil]
    omega
  refine ⟨?_, ?_, ?_, ?_, ?_, ?_, ?_, rfl, rfl, rfl⟩
  · exact XorsDC_length L _ hrows hne
  · intro k hk
    exact (XorsDC_getD L k hk _ hrows hne).1
  · intro i hi
    rw [handleRequest_trace,
      List.getD_append _ _ _ _ (by simp; omega),
      List.getD_append _ _ _ _ (by simpa using hi),
      mapRange_getD _ _ _ _ hi]
  · rw [handleRequest_trace, List.append_assoc,
      List.getD_append_right _ _ _ _ (by simp)]
    simp
  · intro i hi
    simp only [handleRequest_trace, List.append_assoc, List.mem_append,
      List.mem_map, List.mem_range, List.mem_filter, List.mem_cons,
      List.not_mem_nil, or_false, decide_eq_true_eq] at hi
    rcases hi with h | h | h
    · obtain ⟨a, _, he⟩ := h
      cases he
    · cases h
    · obtain ⟨a, ⟨_, hsel⟩, he⟩ := h
      cases he
      exact hsel
  · intro i hi hsel
    simp only [handleRequest_trace, List.append_assoc, List.mem_append,
      List.mem_map, List.mem_range, List.mem_filter, List.mem_cons,
      List.not_mem_nil, or_false, decide_eq_true_eq]
    exact Or.inr (Or.inr ⟨i, ⟨hi, hsel⟩, rfl⟩)
  · intro k i hk
    rcases Nat.lt_or_ge k totalClients with hlt | hge
    · exfalso
      rw [handleRequest_trace,
        List.getD_append _ _ _ _ (by simp; omega),
        List.getD_append _ _ _ _ (by simpa using hlt),
        mapRange_getD _ _ _ _ hlt] at hk
      exact Event.noConfusion hk
    · rcases Nat.eq_or_lt_of_le hge with heq | hgt
      · exfalso
        rw [handleRequest_trace, List.append_assoc,
          List.getD_append_right _ _ _ _ (by simp; omega),
          ← heq] at hk
        simp at hk
      · exact hgt

theorem C5_handleRequest_ordering_witness :
    (handleRequest_reqHashes 2 (fun i => [[i + 1, i + 2]])).getD 0 []
        = Xors [[1, 2], [2, 3]] ∧
    (handleRequest_trace 2 0 (fun i => i)).getD 2 Event.ret
        = Event.publishReqHashes ∧
    Event.signalReqHashesRdy 0 ∈ handleRequest_trace 2 0 (fun i => i) := by
  have h := C5_handleRequest_ordering 2 0 0 1 (fun i => i)
    (fun i => [[i + 1, i + 2]]) (fun i _ => rfl) (by decide)
  refine ⟨?_, h.2.2.2.1, h.2.2.2.2.2.1 0 (by decide) rfl⟩
  have h2 := h.2.1 0 (by decide)
  rw [h2]
  rfl

/-- C1: for a client hosted on this server, `GetResponse(cmask)` returns
only after the receive on `blocksRdy[cmask.Id]` (the trace ends with that
receive immediately followed by the return, after the share receives), it
consumes exactly one share from `xorsChan[j][cmask.Id]` for every server
`j ≠ self` and none for `j = self` (whose slot is the all-zeros string of
length `BlockSize`), and its result is
`ComputeResponse(allBlocks, cmask.Mask, secrets[cmask.Id])` XORed bytewise
with the XOR of those received shares. -/
theorem C1_GetResponse_assembly
    (computeResponse : List Blk → List Nat → List Nat → List Nat)
    (BlockSize numServers self cid : Nat) (clientMap : Nat → Nat)
    (shares : Nat → List Nat) (allBlocks : List Blk) (mask secret : List Nat)
    (hself : self < numServers)
    (hhost : clientMap cid = self)
    (hlen : ∀ j, j < numServers → j ≠ self → (shares j).length = BlockSize)
    (hr : (computeResponse allBlocks mask secret).length = BlockSize) :
    (∀ j, j < numServers → j ≠ self →
        (GetResponse_trace numServers self cid).count (Event.recvXors j cid)
          = 1) ∧
    (GetResponse_trace numServers self cid).count
        (Event.recvXors self cid) = 0 ∧
    (∀ j c, Event.recvXors j c ∈ GetResponse_trace numServers self cid →
        j < numServers ∧ j ≠ self ∧ c = cid) ∧
    (∃ pre, GetResponse_trace numServers self cid
          = pre ++ [Event.recvBlocksRdy cid, Event.ret] ∧
        ∀ e ∈ pre, ∃ j, e = Event.recvXors j cid) ∧
    (GetResponse_val computeResponse BlockSize numServers self shares
        allBlocks mask secret).length = BlockSize ∧
    (∀ k, k < BlockSize →
        (GetResponse_val computeResponse BlockSize numServers self shares
            allBlocks mask secret).getD k 0
          = Nat.xor (xorShareByte numServers self k shares)
              ((computeResponse allBlocks mask secret).getD k 0)) := by
  have hinj : Function.Injective (fun j => Event.recvXors j cid) := by
    intro a b hab
    simpa using hab
  have hob_len : ∀ x ∈ GetResponse_otherBlocks BlockSize numServers self
      shares, x.length = BlockSize := by
    intro x hx
    obtain ⟨i, hi, rfl⟩ := List.mem_map.mp hx
    rw [List.mem_range] at hi
    by_cases his : i = self
    · rw [if_pos his]
      simp
    · rw [if_neg his]
      exact hlen i hi his
  have hob_ne : GetResponse_otherBlocks BlockSize numServers self shares
      ≠ [] := by
    simp only [GetResponse_otherBlocks, ne_eq, List.map_eq_nil_iff,
      List.range_eq_nil]
    omega
  have hXlen : (Xors (GetResponse_otherBlocks BlockSize numServers self
      shares)).length = BlockSize :=
    Xors_length BlockSize _ hob_len hob_ne
  refine ⟨?_, ?_, ?_, ?_, ?_, ?_⟩
  · intro j hj hjs
    rw [GetResponse_trace, List.count_append]
    have h2 : ([Event.recvBlocksRdy cid, Event.ret]).count
        (Event.recvXors j cid) = 0 := by
      rw [List.count_eq_zero]
      simp
    rw [h2, Nat.add_zero]
    have he : Event.recvXors j cid = (fun j => Event.recvXors j cid) j := rfl
    rw [he, List.count_map_of_injective _ _ hinj]
    apply List.count_eq_one_of_mem ((List.nodup_range _).filter _)
    rw [List.mem_filter]
    exact ⟨List.mem_range.mpr hj, by simpa using hjs⟩
  · rw [GetResponse_trace, List.count_append]
    have h2 : ([Event.recvBlocksRdy cid, Event.ret]).count
        (Event.recvXors self cid) = 0 := by
      rw [List.count_eq_zero]
      simp
    rw [h2, Nat.add_zero, List.count_eq_zero]
    intro hmem
    obtain ⟨a, ha, he⟩ := List.mem_map.mp hmem
    rw [List.mem_filter] at ha
    have : a = self := by
      injection he
    rw [this] at ha
    simpa using ha.2
  · intro j c hmem
    rw [GetResponse_trace, List.mem_append] at hmem
    rcases hmem with h | h
    · obtain ⟨a, ha, he⟩ := List.mem_map.mp h
      rw [List.mem_filter] at ha
      injection he with h1 h2
      subst h1
      subst h2
      exact ⟨List.mem_range.mp ha.1, by simpa using ha.2, rfl⟩
    · simp at h
  · refine ⟨_, rfl, ?_⟩
    intro e he
    obtain ⟨a, _, rfl⟩ := List.mem_map.mp he
    exact ⟨a, rfl⟩
  · show (List.zipWith Nat.xor (Xors (GetResponse_otherBlocks BlockSize
      numServers self shares)) (computeResponse allBlocks mask
        secret)).length = BlockSize
    rw [List.length_zipWith, hXlen, hr]
    omega
  · intro k hk
    have hbx : (GetResponse_val computeResponse BlockSize numServers self
        shares allBlocks mask secret).getD k 0
        = Nat.xor ((Xors (GetResponse_otherBlocks BlockSize numServers self
            shares)).getD k 0)
          ((computeResponse allBlocks mask secret).getD k 0) := by
      show (List.zipWith Nat.xor (Xors (GetResponse_otherBlocks BlockSize
        numServers self shares)) (computeResponse allBlocks mask
          secret)).getD k 0 = _
      rw [List.getD_eq_getElem _ _
        (by rw [List.length_zipWith, hXlen, hr]; omega)]
      rw [List.getElem_zipWith]
      rw [List.getD_eq_getElem _ _ (by rw [hXlen]; omega :
          k < (Xors (GetResponse_otherBlocks BlockSize numServers self
            shares)).length),
        List.getD_eq_getElem _ _ (by rw [hr]; omega :
          k < (computeResponse allBlocks mask secret).length)]
    rw [hbx]
    have hx1 := Xors_getD BlockSize k hk _ hob_len hob_ne
    rw [hx1]
    have hmapmap : (GetResponse_otherBlocks BlockSize numServers self
        shares).map (fun b => b.getD k 0)
        = (List.range numServers).map
            (fun j => if j = self then 0 else (shares j).getD k 0) := by
      rw [GetResponse_otherBlocks, List.map_map]
      apply List.map_congr_left
      intro i _
      show (if i = self then List.replicate BlockSize 0
        else shares i).getD k 0
        = if i = self then 0 else (shares i).getD k 0
      by_cases his : i = self
      · rw [if_pos his, if_pos his,
          List.getD_eq_getElem _ _ (by simpa using hk)]
        simp
      · rw [if_neg his, if_neg his]
    rw [hmapmap, List.foldl_map]
    rw [foldl_xor_skip_zero
      (fun j => if j = self then 0 else (shares j).getD k 0) self
      (by simp) (List.range numServers) 0]
    have hmeq : ((List.range numServers).filter (fun j => j ≠ self)).map
        (fun j => if j = self then 0 else (shares j).getD k 0)
        = ((List.range numServers).filter (fun j => j ≠ self)).map
            (fun j => (shares j).getD k 0) := by
      apply List.map_congr_left
      intro j hj
      have hjne : j ≠ self := by
        rw [List.mem_filter] at hj
        simpa using hj.2
      simp only [if_neg hjne]
    have hback : ((List.range numServers).filter (fun j => j ≠ self)).foldl
        (fun acc j => Nat.xor acc
          (if j = self then 0 else (shares j).getD k 0)) 0
        = xorShareByte numServers self k shares := by
      calc ((List.range numServers).filter (fun j => j ≠ self)).foldl
            (fun acc j => Nat.xor acc
              (if j = self then 0 else (shares j).getD k 0)) 0
          = (((List.range numServers).filter (fun j => j ≠ self)).map
              (fun j => if j = self then 0
                else (shares j).getD k 0)).foldl Nat.xor 0 :=
            (List.foldl_map _ _ _ _).symm
        _ = (((List.range numServers).filter (fun j => j ≠ self)).map
              (fun j => (shares j).getD k 0)).foldl Nat.xor 0 := by
            rw [hmeq]
        _ = xorShareByte numServers self k shares := rfl
    rw [hback]

theorem C1_GetResponse_assembly_witness :
    (GetResponse_trace 3 1 0).count (Event.recvXors 0 0) = 1 ∧
    (GetResponse_trace 3 1 0).count (Event.recvXors 1 0) = 0 ∧
    (GetResponse_val (fun _ _ _ => [5, 6]) 2 3 1 (fun j => [j + 1, j + 2])
        [] [] []).getD 0 0 = 7 := by
  have h := C1_GetResponse_assembly (fun _ _ _ => [5, 6]) 2 3 1 0
    (fun _ => 1) (fun j => [j + 1, j + 2]) [] [] [] (by decide) rfl
    (fun j _ _ => rfl) rfl
  refine ⟨h.1 0 (by decide) (by decide), h.2.1, ?_⟩
  have h6 := h.2.2.2.2.2 0 (by decide)
  rw [h6]
  decide

end Riffle
